import Mathlib

/-
Verification of the linearization core of kalman_lie
(examples/Lie/LiePositionMeasurementModel.hpp).

Scalars are embedded as rationals (exact arithmetic standing in for the
C++ floating-point scalar type T), dynamic Eigen vectors as lists of
rationals, and matrices as row-major lists of rows.  Definitions whose
C++ source is present under src/ are translated from it; the numerical
differentiation engine (kalman_lie/NumericalDiff.hpp), the state and
measurement types (kalman_lie/LieTypes.hpp), and the base class holding
the Jacobians H and V (kalman/LinearizedMeasurementModel.hpp) are not in
the provided sources and are modelled from the specification, as marked
on each such definition.
-/

namespace KalmanLie

/-- A dynamically sized vector of scalars (Eigen::VectorXd). -/
abbrev Vec := List ℚ

/-- A dynamically sized matrix, stored as a list of rows. -/
abbrev Mat := List (List ℚ)

/-- Modelled from the spec: the manifold-valued state of §3 — a pair of a
manifold coordinate vector x and a tangent velocity v, independently owned
fixed-size vectors (kalman_lie/LieTypes.hpp is not among the sources). -/
structure State where
  x : Vec
  v : Vec
deriving DecidableEq

/-- The vector of n zero entries, as produced by Eigen setZero. -/
def zeroVec (n : ℕ) : Vec := List.replicate n 0

/-- The r-by-c zero matrix, as produced by Eigen setZero. -/
def zeroMat (r c : ℕ) : Mat := List.replicate r (List.replicate c 0)

/-- The n-by-n identity matrix, as produced by Eigen setIdentity. -/
def identityMat (n : ℕ) : Mat :=
  (List.range n).map fun i => (List.range n).map fun j => if i = j then 1 else 0

/-- LiePositionMeasurementModel::h — the measurement function: it copies
the state's manifold coordinate vector into a fresh measurement and
returns it (`measurement = x.x; return measurement;`). -/
def h (s : State) : Vec := s.x

/-- LieFunctor_::operator() — wraps the measurement function for the
differentiation engine: builds a state with coordinates x and zero
velocity (`xx.x = x; xx.v.setZero();`), evaluates `fvec = m->h(xx)` and
returns the status code 0.  The result is the pair (fvec, status). -/
def lieFunctorEval (x : Vec) : Vec × Int :=
  (h { x := x, v := zeroVec 6 }, 0)

/-- LieFunctor_::inputs — declared input dimension of the functor. -/
def lieFunctorInputs : ℕ := 6

/-- LieFunctor_::values — declared output dimension of the functor. -/
def lieFunctorValues : ℕ := 6

/-- Modelled from the spec: the differencing mode of §4.2 / §6
(forward or central), a configuration of the differentiation engine. -/
inductive DiffMode
  | forward
  | central
deriving DecidableEq

/-- Modelled from the spec: the error taxonomy of §7 that the engine can
report — DimensionMismatch and ConfigurationError (NumericalInstability
is not detected by this core). -/
inductive DiffError
  | dimensionMismatch
  | configurationError
deriving DecidableEq

/-- Modelled from the spec: the step size of §4.2 step 2a,
eps_j = max(eps_base, eps_rel * abs x0[j]). -/
def stepSize (epsBase epsRel xj : ℚ) : ℚ := max epsBase (epsRel * |xj|)

/-- Modelled from the spec: §4.2 step 2b — the evaluation point with
component j shifted by d. -/
def perturb (x0 : Vec) (j : ℕ) (d : ℚ) : Vec :=
  x0.set j (x0.getD j 0 + d)

/-- Componentwise difference of two vectors. -/
def vecSub (a b : Vec) : Vec := List.zipWith (· - ·) a b

/-- Scaling of a vector by a scalar. -/
def vecScale (c : ℚ) (v : Vec) : Vec := v.map (c * ·)

/-- The n_out-by-n_in matrix whose columns are the given list of column
vectors (§4.2 step 2d assembles the Jacobian column by column). -/
def matFromCols (nOut : ℕ) (cols : List Vec) : Mat :=
  (List.range nOut).map fun i => cols.map fun c => c.getD i 0

/-- Modelled from the spec: §4.2 step 2 for forward differences — column
j of the Jacobian is (f_plus - f0) / eps_j, after checking that the
evaluation has the declared output dimension (§4.2 error conditions). -/
def fdColumn (nOut : ℕ) (epsBase epsRel : ℚ) (f : Vec → Vec) (x0 : Vec)
    (j : ℕ) : Except DiffError Vec :=
  let e := stepSize epsBase epsRel (x0.getD j 0)
  let fp := f (perturb x0 j e)
  if fp.length = nOut then
    .ok (vecScale (1 / e) (vecSub fp (f x0)))
  else
    .error .dimensionMismatch

/-- Modelled from the spec: §4.2 step 2 for central differences — column
j of the Jacobian is (f_plus - f_minus) / (2 eps_j), after checking that
both evaluations have the declared output dimension. -/
def cdColumn (nOut : ℕ) (epsBase epsRel : ℚ) (f : Vec → Vec) (x0 : Vec)
    (j : ℕ) : Except DiffError Vec :=
  let e := stepSize epsBase epsRel (x0.getD j 0)
  let fp := f (perturb x0 j e)
  let fm := f (perturb x0 j (-e))
  if fp.length = nOut ∧ fm.length = nOut then
    .ok (vecScale (1 / (2 * e)) (vecSub fp fm))
  else
    .error .dimensionMismatch

/-- Sequences the per-column results of the engine, propagating the first
error (the engine aborts the Jacobian computation on any failed column). -/
def seqCols : List (Except DiffError Vec) → Except DiffError (List Vec)
  | [] => .ok []
  | c :: cs =>
    match c with
    | .error e => .error e
    | .ok v =>
      match seqCols cs with
      | .error e => .error e
      | .ok vs => .ok (v :: vs)

/-- Modelled from the spec: dispatch of §4.2 step 2d on the configured
differencing mode. -/
def dfColumn (mode : DiffMode) (nOut : ℕ) (epsBase epsRel : ℚ)
    (f : Vec → Vec) (x0 : Vec) (j : ℕ) : Except DiffError Vec :=
  match mode with
  | .forward => fdColumn nOut epsBase epsRel f x0 j
  | .central => cdColumn nOut epsBase epsRel f x0 j

/-- Modelled from the spec: the finite-difference Jacobian engine of §4.2
(kalman_lie/NumericalDiff.hpp is not among the sources).  Configuration
errors (non-positive eps_base or eps_rel, §7) are detected eagerly; a
mismatch between the declared (n_in, n_out) and the actual sizes of x0 or
of f's values is a dimension-mismatch failure, never a silent truncation
or padding; otherwise the Jacobian is assembled column by column, forward
or central differences as configured. -/
def df (mode : DiffMode) (nIn nOut : ℕ) (epsBase epsRel : ℚ)
    (f : Vec → Vec) (x0 : Vec) : Except DiffError Mat :=
  if epsBase ≤ 0 ∨ epsRel ≤ 0 then .error .configurationError
  else if x0.length ≠ nIn then .error .dimensionMismatch
  else if (f x0).length ≠ nOut then .error .dimensionMismatch
  else
    match seqCols ((List.range nIn).map (dfColumn mode nOut epsBase epsRel f x0)) with
    | .ok cols => .ok (matFromCols nOut cols)
    | .error e => .error e

/-- Modelled from the spec: the Linearized Measurement Model's stored
data of §3/§4.3 — the measurement Jacobian H, the noise Jacobian V, and
the engine's step-size configuration of §6 (the base class
kalman/LinearizedMeasurementModel.hpp is not among the sources). -/
structure Model where
  H : Mat
  V : Mat
  epsBase : ℚ
  epsRel : ℚ
deriving DecidableEq

/-- LiePositionMeasurementModel's constructor: the noise Jacobian V is
set to the identity once (`this->V.setIdentity();`) and never touched
again.  The initial H and the step-size parameters come from the base
class and engine configuration, which are modelled from the spec (the
spec leaves the pre-linearization H unspecified beyond being overwritten
by every linearize call; it is taken as the identity here). -/
def newModel (epsBase epsRel : ℚ) : Model :=
  { H := identityMat 6, V := identityMat 6, epsBase := epsBase, epsRel := epsRel }

/-- LiePositionMeasurementModel::updateJacobians — zeroes the stored H
(`this->H.setZero();`), runs the differentiation engine on the functor at
the state's manifold coordinates (`num_diff.df(xx, jac)` with
`xx = x.x`), and stores the resulting Jacobian in H (`this->H = jac;`).
The debug console output in the source is incidental logging (spec §9)
and has no effect on the model.  The result is the model at completion
(or at the point of failure) together with the reported error, if any. -/
def updateJacobians (m : Model) (s : State) : Model × Option DiffError :=
  let m1 : Model := { m with H := zeroMat 6 6 }
  match df .forward 6 6 m.epsBase m.epsRel (fun y => (lieFunctorEval y).1) s.x with
  | .ok J => ({ m1 with H := J }, none)
  | .error e => (m1, some e)

/-- An operation a filter can perform on the model during its lifetime:
evaluate the measurement function, or linearize at a state. -/
inductive Op
  | measure (s : State)
  | linearize (s : State)

/-- The model after one operation: `h` is const and leaves the model
unchanged; `linearize` runs updateJacobians. -/
def runOp (m : Model) : Op → Model
  | .measure _ => m
  | .linearize s => (updateJacobians m s).1

/-- The model after a sequence of operations. -/
def runOps (m : Model) : List Op → Model
  | [] => m
  | o :: os => runOps (runOp m o) os

/-- Dot product of two vectors (componentwise products, summed). -/
def dot (a b : Vec) : ℚ := (List.zipWith (· * ·) a b).sum

/-- The linear map x ↦ A x on the embedded vectors: entry i of the image
is the dot product of row i of A with x. -/
def matVec (A : Mat) (x : Vec) : Vec := A.map fun r => dot r x

lemma length_perturb (x0 : Vec) (j : ℕ) (d : ℚ) :
    (perturb x0 j d).length = x0.length := by
  simp [perturb]

lemma stepSize_pos (epsBase epsRel xj : ℚ) (hb : 0 < epsBase) :
    0 < stepSize epsBase epsRel xj :=
  lt_of_lt_of_le hb (le_max_left _ _)

lemma seqCols_map_ok {α : Type} (l : List α) (g : α → Except DiffError Vec)
    (g' : α → Vec) (hg : ∀ a ∈ l, g a = .ok (g' a)) :
    seqCols (l.map g) = .ok (l.map g') := by
  induction l with
  | nil => rfl
  | cons a t ih =>
    rw [List.map_cons, hg a (List.mem_cons_self a t), List.map_cons]
    show (match seqCols (t.map g) with
      | .error e => Except.error e
      | .ok vs => Except.ok (g' a :: vs)) = .ok (g' a :: t.map g')
    rw [ih fun b hb => hg b (List.mem_cons_of_mem a hb)]

lemma range_map_getD {α : Type} (d : α) (l : List α) :
    (List.range l.length).map (fun j => l.getD j d) = l := by
  induction l with
  | nil => rfl
  | cons a t ih =>
    rw [List.length_cons, List.range_succ_eq_map, List.map_cons, List.map_map]
    have hcomp : ((fun j => (a :: t).getD j d) ∘ Nat.succ)
        = fun j => t.getD j d := by
      funext j
      simp [List.getD_cons_succ]
    rw [hcomp, ih, List.getD_cons_zero]

lemma getD_vecScale (c : ℚ) (v : Vec) (i : ℕ) (hi : i < v.length) :
    (vecScale c v).getD i 0 = c * v.getD i 0 := by
  unfold vecScale
  rw [List.getD_eq_getElem _ _ (by simpa using hi), List.getElem_map,
    List.getD_eq_getElem _ _ hi]

lemma getD_vecSub (a b : Vec) (i : ℕ) (ha : i < a.length)
    (hb : i < b.length) :
    (vecSub a b).getD i 0 = a.getD i 0 - b.getD i 0 := by
  unfold vecSub
  rw [List.getD_eq_getElem _ _ (by simp; omega), List.getElem_zipWith,
    List.getD_eq_getElem _ _ ha, List.getD_eq_getElem _ _ hb]

lemma getD_perturb (x0 : Vec) (j : ℕ) (d : ℚ) (i : ℕ) (hi : i < x0.length) :
    (perturb x0 j d).getD i 0
      = if j = i then x0.getD j 0 + d else x0.getD i 0 := by
  unfold perturb
  rw [List.getD_eq_getElem _ _ (by simpa using hi), List.getElem_set]
  by_cases hji : j = i
  · simp [hji]
  · rw [if_neg hji, if_neg hji, List.getD_eq_getElem _ _ hi]

lemma matFromCols_entries (nIn nOut : ℕ) (A : Mat) (colFun : ℕ → Vec)
    (hA : A.length = nOut) (hrow : ∀ r ∈ A, r.length = nIn)
    (hentry : ∀ j < nIn, ∀ i < nOut,
      (colFun j).getD i 0 = (A.getD i []).getD j 0) :
    matFromCols nOut ((List.range nIn).map colFun) = A := by
  subst hA
  unfold matFromCols
  have step1 : ∀ i ∈ List.range A.length,
      ((List.range nIn).map colFun).map (fun c => c.getD i 0)
        = (List.range nIn).map fun j => (A.getD i []).getD j 0 := by
    intro i hi
    rw [List.map_map]
    refine List.map_congr_left ?_
    intro j hj
    exact hentry j (List.mem_range.mp hj) i (List.mem_range.mp hi)
  rw [List.map_congr_left step1]
  have step2 : ∀ i ∈ List.range A.length,
      ((List.range nIn).map fun j => (A.getD i []).getD j 0) = A.getD i [] := by
    intro i hi
    have hilt : i < A.length := List.mem_range.mp hi
    have hlen : (A.getD i []).length = nIn := by
      apply hrow
      rw [List.getD_eq_getElem _ _ hilt]
      exact List.getElem_mem hilt
    rw [← hlen]
    exact range_map_getD 0 _
  rw [List.map_congr_left step2]
  exact range_map_getD [] A

lemma identityMat_length (n : ℕ) : (identityMat n).length = n := by
  simp [identityMat]

lemma identityMat_row_length (n : ℕ) :
    ∀ r ∈ identityMat n, r.length = n := by
  intro r hr
  unfold identityMat at hr
  obtain ⟨i, _, rfl⟩ := List.mem_map.mp hr
  simp

lemma identityMat_getD (n i j : ℕ) (hi : i < n) (hj : j < n) :
    ((identityMat n).getD i []).getD j 0 = if i = j then 1 else 0 := by
  have h1 : (identityMat n).getD i []
      = (List.range n).map fun k => if i = k then (1 : ℚ) else 0 := by
    rw [List.getD_eq_getElem _ _ (by simpa [identityMat] using hi)]
    unfold identityMat
    rw [List.getElem_map, List.getElem_range]
  rw [h1, List.getD_eq_getElem _ _ (by simpa using hj), List.getElem_map,
    List.getElem_range]

/-- The forward-difference Jacobian of the identity function is the
identity matrix: engine correctness on the functor of the source. -/
lemma df_forward_id (n : ℕ) (epsBase epsRel : ℚ) (hb : 0 < epsBase)
    (hr : 0 < epsRel) (x0 : Vec) (hx : x0.length = n) :
    df .forward n n epsBase epsRel (fun y => y) x0 = .ok (identityMat n) := by
  have hcol : ∀ j ∈ List.range n,
      dfColumn .forward n epsBase epsRel (fun y => y) x0 j
        = Except.ok (vecScale (1 / stepSize epsBase epsRel (x0.getD j 0))
            (vecSub (perturb x0 j (stepSize epsBase epsRel (x0.getD j 0))) x0)) := by
    intro j _
    show fdColumn n epsBase epsRel (fun y => y) x0 j = _
    simp only [fdColumn]
    rw [if_pos (by rw [length_perturb, hx])]
  have hmat : matFromCols n ((List.range n).map fun j =>
      vecScale (1 / stepSize epsBase epsRel (x0.getD j 0))
        (vecSub (perturb x0 j (stepSize epsBase epsRel (x0.getD j 0))) x0))
      = identityMat n := by
    refine matFromCols_entries n n (identityMat n) _ (identityMat_length n)
      (identityMat_row_length n) ?_
    intro j hj i hi
    rw [identityMat_getD n i j hi hj]
    have hjx : j < x0.length := hx ▸ hj
    have hix : i < x0.length := hx ▸ hi
    have hepos : 0 < stepSize epsBase epsRel (x0.getD j 0) :=
      stepSize_pos _ _ _ hb
    rw [getD_vecScale _ _ _
        (by rw [vecSub, List.length_zipWith, length_perturb]; omega),
      getD_vecSub _ _ _ (by rw [length_perturb]; exact hix) hix,
      getD_perturb _ _ _ _ hix]
    by_cases hij : i = j
    · subst hij
      rw [if_pos rfl, if_pos rfl, add_sub_cancel_left]
      exact one_div_mul_cancel (ne_of_gt hepos)
    · rw [if_neg (fun hji => hij hji.symm), if_neg hij]
      ring
  unfold df
  rw [if_neg (by push_neg; exact ⟨hb, hr⟩), if_neg (by simpa using hx),
    if_neg (by simpa using hx), seqCols_map_ok (List.range n) _ _ hcol]
  exact congrArg Except.ok hmat

lemma dot_cons (a c : ℚ) (rt t : Vec) :
    dot (a :: rt) (c :: t) = a * c + dot rt t := by
  simp [dot]

lemma dot_set (r x : Vec) (j : ℕ) (v : ℚ) (hj : j < x.length)
    (hl : r.length = x.length) :
    dot r (x.set j v) = dot r x + r.getD j 0 * (v - x.getD j 0) := by
  induction x generalizing r j with
  | nil => simp at hj
  | cons b t ih =>
    cases r with
    | nil => simp at hl
    | cons a rt =>
      cases j with
      | zero =>
        rw [List.set_cons_zero, dot_cons, dot_cons, List.getD_cons_zero,
          List.getD_cons_zero]
        ring
      | succ j' =>
        rw [List.set_cons_succ, dot_cons, dot_cons, List.getD_cons_succ,
          List.getD_cons_succ,
          ih rt j' (Nat.lt_of_succ_lt_succ hj) (Nat.succ_injective hl)]
        ring

lemma length_matVec (A : Mat) (y : Vec) : (matVec A y).length = A.length := by
  simp [matVec]

lemma getD_matVec (A : Mat) (y : Vec) (i : ℕ) (hi : i < A.length) :
    (matVec A y).getD i 0 = dot (A.getD i []) y := by
  unfold matVec
  rw [List.getD_eq_getElem _ _ (by simpa using hi), List.getElem_map,
    List.getD_eq_getElem _ _ hi]

/-- The finite-difference Jacobian of a linear map x ↦ A x is exactly A,
in either differencing mode: engine correctness on linear functions. -/
lemma df_linear (mode : DiffMode) (nIn nOut : ℕ) (A : Mat) (x0 : Vec)
    (epsBase epsRel : ℚ) (hb : 0 < epsBase) (hr : 0 < epsRel)
    (hA : A.length = nOut) (hrow : ∀ r ∈ A, r.length = nIn)
    (hx : x0.length = nIn) :
    df mode nIn nOut epsBase epsRel (matVec A) x0 = .ok A := by
  have hrowD : ∀ i, i < A.length → (A.getD i []).length = x0.length := by
    intro i hiA
    rw [hx]
    apply hrow
    rw [List.getD_eq_getElem _ _ hiA]
    exact List.getElem_mem hiA
  cases mode with
  | forward =>
    have hcol : ∀ j ∈ List.range nIn,
        dfColumn .forward nOut epsBase epsRel (matVec A) x0 j
          = Except.ok (vecScale (1 / stepSize epsBase epsRel (x0.getD j 0))
              (vecSub
                (matVec A (perturb x0 j (stepSize epsBase epsRel (x0.getD j 0))))
                (matVec A x0))) := by
      intro j _
      show fdColumn nOut epsBase epsRel (matVec A) x0 j = _
      simp only [fdColumn]
      rw [if_pos (by rw [length_matVec]; exact hA)]
    have hmat : matFromCols nOut ((List.range nIn).map fun j =>
        vecScale (1 / stepSize epsBase epsRel (x0.getD j 0))
          (vecSub
            (matVec A (perturb x0 j (stepSize epsBase epsRel (x0.getD j 0))))
            (matVec A x0))) = A := by
      refine matFromCols_entries nIn nOut A _ hA hrow ?_
      intro j hj i hi
      have hiA : i < A.length := hA ▸ hi
      have hjx : j < x0.length := hx ▸ hj
      have hne : stepSize epsBase epsRel (x0.getD j 0) ≠ 0 :=
        ne_of_gt (stepSize_pos _ _ _ hb)
      rw [List.getD_eq_getElem x0 0 hjx] at hne
      rw [getD_vecScale _ _ _
          (by rw [vecSub, List.length_zipWith, length_matVec, length_matVec]; omega),
        getD_vecSub _ _ _ (by rw [length_matVec]; exact hiA)
          (by rw [length_matVec]; exact hiA),
        getD_matVec _ _ _ hiA, getD_matVec _ _ _ hiA, perturb,
        dot_set _ _ _ _ hjx (hrowD i hiA)]
      field_simp
    unfold df
    rw [if_neg (by push_neg; exact ⟨hb, hr⟩), if_neg (by simpa using hx),
      if_neg (by simp [length_matVec, hA]),
      seqCols_map_ok (List.range nIn) _ _ hcol]
    exact congrArg Except.ok hmat
  | central =>
    have hcol : ∀ j ∈ List.range nIn,
        dfColumn .central nOut epsBase epsRel (matVec A) x0 j
          = Except.ok (vecScale (1 / (2 * stepSize epsBase epsRel (x0.getD j 0)))
              (vecSub
                (matVec A (perturb x0 j (stepSize epsBase epsRel (x0.getD j 0))))
                (matVec A (perturb x0 j (-stepSize epsBase epsRel (x0.getD j 0)))))) := by
      intro j _
      show cdColumn nOut epsBase epsRel (matVec A) x0 j = _
      simp only [cdColumn]
      rw [if_pos ⟨by rw [length_matVec]; exact hA, by rw [length_matVec]; exact hA⟩]
    have hmat : matFromCols nOut ((List.range nIn).map fun j =>
        vecScale (1 / (2 * stepSize epsBase epsRel (x0.getD j 0)))
          (vecSub
            (matVec A (perturb x0 j (stepSize epsBase epsRel (x0.getD j 0))))
            (matVec A (perturb x0 j (-stepSize epsBase epsRel (x0.getD j 0)))))) = A := by
      refine matFromCols_entries nIn nOut A _ hA hrow ?_
      intro j hj i hi
      have hiA : i < A.length := hA ▸ hi
      have hjx : j < x0.length := hx ▸ hj
      have hne : stepSize epsBase epsRel (x0.getD j 0) ≠ 0 :=
        ne_of_gt (stepSize_pos _ _ _ hb)
      rw [List.getD_eq_getElem x0 0 hjx] at hne
      rw [getD_vecScale _ _ _
          (by rw [vecSub, List.length_zipWith, length_matVec, length_matVec]; omega),
        getD_vecSub _ _ _ (by rw [length_matVec]; exact hiA)
          (by rw [length_matVec]; exact hiA),
        getD_matVec _ _ _ hiA, getD_matVec _ _ _ hiA, perturb, perturb,
        dot_set _ _ _ _ hjx (hrowD i hiA), dot_set _ _ _ _ hjx (hrowD i hiA)]
      field_simp
      ring
    unfold df
    rw [if_neg (by push_neg; exact ⟨hb, hr⟩), if_neg (by simpa using hx),
      if_neg (by simp [length_matVec, hA]),
      seqCols_map_ok (List.range nIn) _ _ hcol]
    exact congrArg Except.ok hmat

lemma updateJacobians_frame (m : Model) (s : State) :
    (updateJacobians m s).1.V = m.V ∧
    (updateJacobians m s).1.epsBase = m.epsBase ∧
    (updateJacobians m s).1.epsRel = m.epsRel := by
  unfold updateJacobians
  cases df .forward 6 6 m.epsBase m.epsRel (fun y => (lieFunctorEval y).1) s.x <;>
    simp

lemma runOp_V (m : Model) (o : Op) : (runOp m o).V = m.V := by
  cases o with
  | measure s => rfl
  | linearize s => exact (updateJacobians_frame m s).1

/-- C3: for every state s the measurement function h returns exactly the
state's manifold coordinate vector s.x (pure by construction in this
embedding); in particular for a state with coordinates [1,2,3,4,5,6] and
n_m = 6 it returns exactly [1,2,3,4,5,6]. -/
theorem C3_h_returns_state_coordinates (s : State) :
    h s = s.x ∧
    h { x := [1, 2, 3, 4, 5, 6], v := zeroVec 6 } = [1, 2, 3, 4, 5, 6] :=
  ⟨rfl, rfl⟩

/-- C9: the differentiation functor's evaluation operator returns the
status code 0 for every input vector, never signalling failure through
its return value. -/
theorem C9_functor_status_always_zero (x : Vec) : (lieFunctorEval x).2 = 0 :=
  rfl

/-- C7: updateJacobians overwrites only the stored H: the noise Jacobian
V and the step-size configuration of the model are unchanged by the
call. -/
theorem C7_updateJacobians_only_H (m : Model) (s : State) :
    (updateJacobians m s).1.V = m.V ∧
    (updateJacobians m s).1.epsBase = m.epsBase ∧
    (updateJacobians m s).1.epsRel = m.epsRel :=
  updateJacobians_frame m s

/-- C4: V is the identity immediately after construction and after every
sequence of measurement and linearization calls on the model: it is never
mutated during the model's lifetime. -/
theorem C4_V_immutable (epsBase epsRel : ℚ) (ops : List Op) :
    (runOps (newModel epsBase epsRel) ops).V = identityMat 6 ∧
    (newModel epsBase epsRel).V = identityMat 6 := by
  have key : ∀ (os : List Op) (m : Model), (runOps m os).V = m.V := by
    intro os
    induction os with
    | nil => intro m; rfl
    | cons o os ih => intro m; rw [runOps, ih, runOp_V]
  exact ⟨by rw [key]; rfl, rfl⟩

/-- C5: two states with the same manifold coordinates but (possibly)
different tangent velocities produce the same measurement h and the same
linearization result: neither consumes the velocity component. -/
theorem C5_velocity_not_consumed (m : Model) (s₁ s₂ : State)
    (hx : s₁.x = s₂.x) :
    h s₁ = h s₂ ∧ updateJacobians m s₁ = updateJacobians m s₂ := by
  refine ⟨hx, ?_⟩
  unfold updateJacobians
  rw [hx]

/-- Witness for C5 at two concrete states sharing coordinates
[1,2,3,4,5,6] but carrying different velocities. -/
theorem C5_witness :
    (State.mk [1, 2, 3, 4, 5, 6] (zeroVec 6)).x
      = (State.mk [1, 2, 3, 4, 5, 6] [7, 7, 7, 7, 7, 7]).x ∧
    (h (State.mk [1, 2, 3, 4, 5, 6] (zeroVec 6))
        = h (State.mk [1, 2, 3, 4, 5, 6] [7, 7, 7, 7, 7, 7]) ∧
      updateJacobians (newModel (1 / 100) (1 / 100))
          (State.mk [1, 2, 3, 4, 5, 6] (zeroVec 6))
        = updateJacobians (newModel (1 / 100) (1 / 100))
          (State.mk [1, 2, 3, 4, 5, 6] [7, 7, 7, 7, 7, 7])) :=
  ⟨rfl, C5_velocity_not_consumed (newModel (1 / 100) (1 / 100)) _ _ rfl⟩

/-- C6: linearization is deterministic and the stored Jacobian is a pure
function of the state coordinates and the step-size parameters: two
models agreeing on eps_base and eps_rel (whatever their stored H and V)
linearized at the same state store the same H and report the same
status. -/
theorem C6_jacobian_pure_in_state_and_params (m₁ m₂ : Model) (s : State)
    (hb : m₁.epsBase = m₂.epsBase) (hr : m₁.epsRel = m₂.epsRel) :
    (updateJacobians m₁ s).1.H = (updateJacobians m₂ s).1.H ∧
    (updateJacobians m₁ s).2 = (updateJacobians m₂ s).2 := by
  unfold updateJacobians
  rw [hb, hr]
  cases df .forward 6 6 m₂.epsBase m₂.epsRel (fun y => (lieFunctorEval y).1) s.x <;>
    simp

/-- Witness for C6: two models with different stored H and V but the same
step-size parameters linearize identically at a concrete state. -/
theorem C6_witness :
    (newModel (1 / 100) (1 / 100)).epsBase
      = (Model.mk (zeroMat 6 6) (zeroMat 6 6) (1 / 100) (1 / 100)).epsBase ∧
    (newModel (1 / 100) (1 / 100)).epsRel
      = (Model.mk (zeroMat 6 6) (zeroMat 6 6) (1 / 100) (1 / 100)).epsRel ∧
    ((updateJacobians (newModel (1 / 100) (1 / 100))
          (State.mk [1, 2, 3, 4, 5, 6] (zeroVec 6))).1.H
        = (updateJacobians (Model.mk (zeroMat 6 6) (zeroMat 6 6) (1 / 100) (1 / 100))
          (State.mk [1, 2, 3, 4, 5, 6] (zeroVec 6))).1.H ∧
      (updateJacobians (newModel (1 / 100) (1 / 100))
          (State.mk [1, 2, 3, 4, 5, 6] (zeroVec 6))).2
        = (updateJacobians (Model.mk (zeroMat 6 6) (zeroMat 6 6) (1 / 100) (1 / 100))
          (State.mk [1, 2, 3, 4, 5, 6] (zeroVec 6))).2) :=
  ⟨rfl, rfl,
    C6_jacobian_pure_in_state_and_params _ _ (State.mk [1, 2, 3, 4, 5, 6] (zeroVec 6))
      rfl rfl⟩

/-- C10: updateJacobians discards the previous Jacobian unconditionally:
the stored H after the call does not depend on the H held before it, and
whenever the call reports an error the stored H is the zero matrix set at
the start of the call, never the stale Jacobian of a previous
linearization. -/
theorem C10_stale_H_discarded (m : Model) (s : State) (Hprev : Mat) :
    (updateJacobians { m with H := Hprev } s).1.H = (updateJacobians m s).1.H ∧
    ((updateJacobians m s).1.H = zeroMat 6 6 ∨ (updateJacobians m s).2 = none) := by
  unfold updateJacobians
  cases df .forward 6 6 m.epsBase m.epsRel (fun y => (lieFunctorEval y).1) s.x <;>
    simp

/-- C1: linearizing the model at a state with coordinates [1,2,3,4,5,6]
(n_m = 6) stores H = identity, and in general the finite-difference
Jacobian of the identity function on an n-dimensional space is the n-by-n
identity matrix at every evaluation point, for every valid step-size
configuration. -/
theorem C1_linearize_identity (epsBase epsRel : ℚ) (hb : 0 < epsBase)
    (hr : 0 < epsRel) (n : ℕ) (x0 : Vec) (hx : x0.length = n) :
    (updateJacobians (newModel epsBase epsRel)
        (State.mk [1, 2, 3, 4, 5, 6] (zeroVec 6))).1.H = identityMat 6 ∧
    df .forward n n epsBase epsRel (fun y => y) x0 = .ok (identityMat n) := by
  constructor
  · have hdf : df .forward 6 6 (newModel epsBase epsRel).epsBase
        (newModel epsBase epsRel).epsRel (fun y => (lieFunctorEval y).1)
        (State.mk [1, 2, 3, 4, 5, 6] (zeroVec 6)).x = .ok (identityMat 6) :=
      df_forward_id 6 epsBase epsRel hb hr [1, 2, 3, 4, 5, 6] rfl
    unfold updateJacobians
    rw [hdf]
  · exact df_forward_id n epsBase epsRel hb hr x0 hx

/-- Witness for C1 with step sizes 1/100 and, for the general part, the
identity on a 2-dimensional space at evaluation point [5, 7]. -/
theorem C1_witness :
    0 < (1 / 100 : ℚ) ∧ ([5, 7] : Vec).length = 2 ∧
    ((updateJacobians (newModel (1 / 100) (1 / 100))
        (State.mk [1, 2, 3, 4, 5, 6] (zeroVec 6))).1.H = identityMat 6 ∧
      df .forward 2 2 (1 / 100) (1 / 100) (fun y => y) [5, 7]
        = .ok (identityMat 2)) :=
  ⟨by norm_num, rfl,
    C1_linearize_identity (1 / 100) (1 / 100) (by norm_num) (by norm_num)
      2 [5, 7] rfl⟩

/-- C2: for every state whose coordinate vector length differs from the
functor's declared input size 6, linearization fails deterministically
with a dimension-mismatch error, and the stored H is the zero matrix set
at the start of the call — never a truncated, padded or partial
Jacobian. -/
theorem C2_dimension_mismatch_fails (m : Model) (s : State)
    (hb : 0 < m.epsBase) (hr : 0 < m.epsRel) (hlen : s.x.length ≠ 6) :
    updateJacobians m s
      = ({ m with H := zeroMat 6 6 }, some .dimensionMismatch) := by
  have hdf : df .forward 6 6 m.epsBase m.epsRel (fun y => (lieFunctorEval y).1) s.x
      = .error .dimensionMismatch := by
    unfold df
    rw [if_neg (by push_neg; exact ⟨hb, hr⟩), if_pos hlen]
  unfold updateJacobians
  rw [hdf]

/-- Witness for C2 at a state with only 3 coordinates. -/
theorem C2_witness :
    0 < (newModel (1 / 100) (1 / 100)).epsBase ∧
    0 < (newModel (1 / 100) (1 / 100)).epsRel ∧
    (State.mk [1, 2, 3] []).x.length ≠ 6 ∧
    updateJacobians (newModel (1 / 100) (1 / 100)) (State.mk [1, 2, 3] [])
      = ({ newModel (1 / 100) (1 / 100) with H := zeroMat 6 6 },
          some .dimensionMismatch) :=
  ⟨by norm_num [newModel], by norm_num [newModel], by decide,
    C2_dimension_mismatch_fails _ _ (by norm_num [newModel])
      (by norm_num [newModel]) (by decide)⟩

/-- C8: for every linear function x ↦ A x and every evaluation point, the
finite-difference Jacobian produced by the engine equals A (exactly, in
this exact-arithmetic embedding, hence within any O(eps) or O(eps^2)
tolerance), in forward and in central differencing mode. -/
theorem C8_linear_jacobian (A : Mat) (nIn nOut : ℕ) (x0 : Vec)
    (epsBase epsRel : ℚ) (hb : 0 < epsBase) (hr : 0 < epsRel)
    (hA : A.length = nOut) (hrow : ∀ r ∈ A, r.length = nIn)
    (hx : x0.length = nIn) :
    df .forward nIn nOut epsBase epsRel (matVec A) x0 = .ok A ∧
    df .central nIn nOut epsBase epsRel (matVec A) x0 = .ok A :=
  ⟨df_linear .forward nIn nOut A x0 epsBase epsRel hb hr hA hrow hx,
    df_linear .central nIn nOut A x0 epsBase epsRel hb hr hA hrow hx⟩

/-- Witness for C8 at the concrete linear map with matrix
[[2, 3], [4, 5]] and evaluation point [1, 2]. -/
theorem C8_witness :
    0 < (1 / 100 : ℚ) ∧
    ([[2, 3], [4, 5]] : Mat).length = 2 ∧
    (∀ r ∈ ([[2, 3], [4, 5]] : Mat), r.length = 2) ∧
    ([1, 2] : Vec).length = 2 ∧
    (df .forward 2 2 (1 / 100) (1 / 100) (matVec [[2, 3], [4, 5]]) [1, 2]
        = .ok [[2, 3], [4, 5]] ∧
      df .central 2 2 (1 / 100) (1 / 100) (matVec [[2, 3], [4, 5]]) [1, 2]
        = .ok [[2, 3], [4, 5]]) :=
  ⟨by norm_num, rfl, by decide, rfl,
    C8_linear_jacobian [[2, 3], [4, 5]] 2 2 [1, 2] (1 / 100) (1 / 100)
      (by norm_num) (by norm_num) rfl (by decide) rfl⟩

end KalmanLie
